import Mathlib

/-!
Verification of the encrypted key-value storage layer (`EncryptStorage`).

The development shallowly embeds the storage protocol of
`src/scripts/storage/storage.ts` together with the crypto utility layer it
builds on.  Byte buffers (`ArrayBuffer`, `Uint8Array`, `BufferSource`) are
modelled as lists of natural numbers, the IndexedDB object store as a finite
map from record addresses to stored blobs, and the asynchronous operations as
pure state-passing functions.  Randomness (fresh salts and nonces from the
secure random generator) is supplied through explicit parameters.

The external cryptographic primitive engine (SubtleCrypto) is an excluded
collaborator of the repository: the functions `digest`, `deriveKey`,
`encrypt` and `decrypt` that wrap it live in a module that is not part of the
analysed sources, so they are modelled from the specification, each marked
with a doc comment starting `Modelled from the spec:`.  Authenticated
encryption is idealized symbolically: a ciphertext determines (and is
determined by) the key, nonce and plaintext that produced it, and decryption
succeeds exactly when key and nonce match.
-/

deriving instance DecidableEq for Except

namespace WebEncryptStorage

/-- A byte buffer (ArrayBuffer / Uint8Array / BufferSource): a list of bytes,
each byte a natural number. -/
abbrev Bytes := List Nat

/-- UTF-8 encoding of a single Unicode code point, as performed by
TextEncoder.  The bit operations of the UTF-8 layout are written with
division and remainder by powers of two. -/
def utf8EncodeChar (c : Nat) : Bytes :=
  if c < 0x80 then [c]
  else if c < 0x800 then [0xC0 + c / 64, 0x80 + c % 64]
  else if c < 0x10000 then [0xE0 + c / 4096, 0x80 + c / 64 % 64, 0x80 + c % 64]
  else [0xF0 + c / 262144, 0x80 + c / 4096 % 64, 0x80 + c / 64 % 64, 0x80 + c % 64]

/-- UTF-8 decoding of a byte buffer into characters, as performed by
TextDecoder with the utf-8 label: a well-formed multi-byte sequence is
reassembled into its code point; a malformed byte yields the replacement
character U+FFFD.  (TextDecoder additionally replaces overlong and surrogate
encodings; the claims only apply the decoder to well-formed output of the
encoder or to plain ASCII, where the two agree.) -/
def utf8DecodeList : Bytes → List Char
  | [] => []
  | [b] =>
    if b < 0x80 then [Char.ofNat b]
    else [Char.ofNat 0xFFFD]
  | [b, b2] =>
    if b < 0x80 then Char.ofNat b :: utf8DecodeList [b2]
    else if b < 0xC0 then Char.ofNat 0xFFFD :: utf8DecodeList [b2]
    else if b < 0xE0 then
      if 0x80 ≤ b2 ∧ b2 < 0xC0 then [Char.ofNat ((b - 0xC0) * 64 + (b2 - 0x80))]
      else Char.ofNat 0xFFFD :: utf8DecodeList [b2]
    else [Char.ofNat 0xFFFD]
  | [b, b2, b3] =>
    if b < 0x80 then Char.ofNat b :: utf8DecodeList [b2, b3]
    else if b < 0xC0 then Char.ofNat 0xFFFD :: utf8DecodeList [b2, b3]
    else if b < 0xE0 then
      if 0x80 ≤ b2 ∧ b2 < 0xC0 then
        Char.ofNat ((b - 0xC0) * 64 + (b2 - 0x80)) :: utf8DecodeList [b3]
      else Char.ofNat 0xFFFD :: utf8DecodeList [b2, b3]
    else if b < 0xF0 then
      if (0x80 ≤ b2 ∧ b2 < 0xC0) ∧ (0x80 ≤ b3 ∧ b3 < 0xC0) then
        [Char.ofNat ((b - 0xE0) * 4096 + (b2 - 0x80) * 64 + (b3 - 0x80))]
      else Char.ofNat 0xFFFD :: utf8DecodeList [b2, b3]
    else [Char.ofNat 0xFFFD]
  | b :: b2 :: b3 :: b4 :: rest =>
    if b < 0x80 then Char.ofNat b :: utf8DecodeList (b2 :: b3 :: b4 :: rest)
    else if b < 0xC0 then Char.ofNat 0xFFFD :: utf8DecodeList (b2 :: b3 :: b4 :: rest)
    else if b < 0xE0 then
      if 0x80 ≤ b2 ∧ b2 < 0xC0 then
        Char.ofNat ((b - 0xC0) * 64 + (b2 - 0x80)) :: utf8DecodeList (b3 :: b4 :: rest)
      else Char.ofNat 0xFFFD :: utf8DecodeList (b2 :: b3 :: b4 :: rest)
    else if b < 0xF0 then
      if (0x80 ≤ b2 ∧ b2 < 0xC0) ∧ (0x80 ≤ b3 ∧ b3 < 0xC0) then
        Char.ofNat ((b - 0xE0) * 4096 + (b2 - 0x80) * 64 + (b3 - 0x80))
          :: utf8DecodeList (b4 :: rest)
      else Char.ofNat 0xFFFD :: utf8DecodeList (b2 :: b3 :: b4 :: rest)
    else
      if (0x80 ≤ b2 ∧ b2 < 0xC0) ∧ (0x80 ≤ b3 ∧ b3 < 0xC0) ∧ (0x80 ≤ b4 ∧ b4 < 0xC0) then
        Char.ofNat ((b - 0xF0) * 262144 + (b2 - 0x80) * 4096 + (b3 - 0x80) * 64 + (b4 - 0x80))
          :: utf8DecodeList rest
      else Char.ofNat 0xFFFD :: utf8DecodeList (b2 :: b3 :: b4 :: rest)

/-- UTF-8 encoding of a character list (the contents of a string). -/
def utf8Chars : List Char → Bytes
  | [] => []
  | c :: cs => utf8EncodeChar c.toNat ++ utf8Chars cs

/-- The `InputDataType` of `storage.type.ts`: a string or a byte buffer. -/
inductive InputData where
  | str (s : String)
  | buf (b : Bytes)
deriving DecidableEq

/-- The function `encode` of `crypto.utils.ts`: a byte buffer passes through
unchanged, a string is UTF-8 encoded by TextEncoder. -/
def encode : InputData → Bytes
  | .str s => utf8Chars s.data
  | .buf b => b

/-- The function `decode` of `crypto.utils.ts`: a string passes through
unchanged, a byte buffer is UTF-8 decoded by TextDecoder. -/
def decode : InputData → String
  | .str s => s
  | .buf b => String.mk (utf8DecodeList b)

/-- Modelled from the spec: the digest function of the primitive engine
(default SHA-256), an excluded collaborator assumed collision resistant.  It
is idealized as an injective function on byte buffers, concretely the
identity embedding: two buffers collide under the model exactly when they are
equal, matching the ideal collision-free reading of the digest. -/
def digest (b : Bytes) : Bytes := b

/-- The function `generateHash` of `crypto.utils.ts`: encode the data, then
digest it. -/
def generateHash (d : InputData) : Bytes := digest (encode d)

/-- Modelled from the spec: the default PBKDF2 iteration count applied by the
key-derivation wrapper when the caller supplies none.  The spec fixes no
number; the concrete value below stands for it and nothing depends on it. -/
def defaultIterations : Nat := 100000

/-- A derived symmetric key: in the ideal model of the key-derivation
function (default PBKDF2 producing an AES-GCM 256 key), the derived key is
fully determined by, and determines, the base key material, the salt and the
effective iteration count. -/
structure DerivedKey where
  base : Bytes
  salt : Bytes
  iterations : Nat
deriving DecidableEq

/-- Modelled from the spec: `deriveKey` of the crypto utility layer derives a
symmetric key from base key material, a salt and an optional iteration count
(defaulted when absent).  Idealized as the tuple of its inputs. -/
def deriveKey (base : Bytes) (salt : Bytes) (iterations : Option Nat) : DerivedKey :=
  ⟨base, salt, iterations.getD defaultIterations⟩

/-- A length-prefixed byte buffer, used to build an injective flat encoding
of ciphertexts. -/
def lenPref (b : Bytes) : Bytes := b.length :: b

/-- Modelled from the spec: the ciphertext blob produced by authenticated
encryption (default AES-GCM).  In the symbolic ideal model a ciphertext
determines and is determined by the key, the nonce and the plaintext, so it
is modelled as an injective flat encoding of the three. -/
def encodeCipher (key : DerivedKey) (nonce : Bytes) (plain : Bytes) : Bytes :=
  lenPref key.base ++ lenPref key.salt ++ [key.iterations] ++ lenPref nonce ++ lenPref plain

/-- Read one length-prefixed buffer from the front of a blob. -/
def readLenPref : Bytes → Option (Bytes × Bytes)
  | [] => none
  | n :: rest => if n ≤ rest.length then some (rest.take n, rest.drop n) else none

/-- Parse a blob as a ciphertext, recovering the key, nonce and plaintext
that produced it, if the blob is the encoding of such a triple. -/
def parseCipher (b : Bytes) : Option (DerivedKey × Bytes × Bytes) :=
  (readLenPref b).bind fun base1 =>
    (readLenPref base1.2).bind fun salt1 =>
      match salt1.2 with
      | [] => none
      | iterations :: r3 =>
        (readLenPref r3).bind fun nonce1 =>
          (readLenPref nonce1.2).bind fun plain1 =>
            if plain1.2 = [] then
              some (⟨base1.1, salt1.1, iterations⟩, nonce1.1, plain1.1)
            else none

/-- Modelled from the spec: `encrypt` of the crypto utility layer encrypts
the encoded data under the derived key with a freshly generated nonce
(supplied here as the explicit parameter `freshNonce`) and returns the
ciphertext together with the nonce. -/
def encrypt (data : InputData) (key : DerivedKey) (freshNonce : Bytes) : Bytes × Bytes :=
  (encodeCipher key freshNonce (encode data), freshNonce)

/-- Modelled from the spec: `decrypt` of the crypto utility layer decrypts a
blob under a derived key and a nonce looked up from storage (absent when the
nonce record is missing).  In the ideal authenticated model it succeeds
exactly when the blob is a ciphertext produced under the same key and the
same nonce; any mismatch of key, nonce, or a corrupted blob fails, which the
storage layer reports as the authenticity error.  A missing nonce always
fails. -/
def decrypt (data : Bytes) (key : DerivedKey) (nonce : Option Bytes) : Option Bytes :=
  match nonce with
  | none => none
  | some n =>
    match parseCipher data with
    | none => none
    | some (k, n2, plain) => if k = key ∧ n2 = n then some plain else none

/-- The object store table: a finite map from record addresses (digests) to
stored blobs.  IndexedDB stores opaque binary values; `put` overwrites,
`delete` removes, `clear` empties. -/
def Table := Bytes → Option Bytes

/-- The `put` operation of the object store. -/
def tput (t : Table) (addr v : Bytes) : Table :=
  fun a => if a = addr then some v else t a

/-- The `delete` operation of the object store. -/
def tdel (t : Table) (addr : Bytes) : Table :=
  fun a => if a = addr then none else t a

/-- The empty table, the result of the `clear` operation of the object
store. -/
def tclear : Table := fun _ => none

/-- The constant `CRYPTO_KEY_ERROR_MESSAGE` of `storage.ts`. -/
def CRYPTO_KEY_ERROR_MESSAGE : String := "Key is required."

/-- The constant `AUTHENTICITY_ERROR_MESSAGE` of `storage.ts`. -/
def AUTHENTICITY_ERROR_MESSAGE : String := "Authenticity check failed."

/-- The reserved salt slot address: the digest of the sentinel string
`o-salt`, computed by `getAndStoreSalt` in `storage.ts`. -/
def saltSlotAddr : Bytes := generateHash (.str "o-salt")

/-- The function `getAndStoreSalt` of `storage.ts`: read the reserved slot;
if a salt is present and the caller supplied none or the same salt, return
the stored salt unchanged; otherwise store and return the caller salt (or a
freshly generated one when the caller supplied none).  The JavaScript strict
equality between the stored and the caller salt is modelled as byte
equality; a fresh random salt from `generateSalt` is passed in explicitly as
`freshSalt`. -/
def getAndStoreSalt (t : Table) (salt : Option Bytes) (freshSalt : Bytes) : Bytes × Table :=
  match t saltSlotAddr with
  | some existingSalt =>
    if salt = none ∨ salt = some existingSalt then (existingSalt, t)
    else (salt.getD freshSalt, tput t saltSlotAddr (salt.getD freshSalt))
  | none => (salt.getD freshSalt, tput t saltSlotAddr (salt.getD freshSalt))

/-- The function `getNonceKey` of `storage.ts`: for a string key, the key
with the fixed suffix `-nonce` appended; for any binary key, the constant
string `nonce`. -/
def getNonceKey : InputData → String
  | .str key => key ++ "-nonce"
  | .buf _ => "nonce"

/-- The secret accepted by the constructor: raw `InputDataType` material or
an already-imported CryptoKey, the latter modelled by its key material. -/
inductive SecretInput where
  | raw (d : InputData)
  | ckey (k : Bytes)
deriving DecidableEq

/-- JavaScript truthiness of `config.key` as tested by the constructor check
`if (!config.key)`: an absent key and the empty string are falsy; every
buffer (even empty) and every CryptoKey object is truthy. -/
def keyTruthy : Option SecretInput → Bool
  | none => false
  | some (.raw (.str s)) => !s.isEmpty
  | some (.raw (.buf _)) => true
  | some (.ckey _) => true

/-- The constructor check of `EncryptStorage` in `storage.ts`: throw the
configuration error when `config.key` is falsy, otherwise proceed. -/
def EncryptStorage.construct (key : Option SecretInput) : Except String Unit :=
  if keyTruthy key then .ok () else .error CRYPTO_KEY_ERROR_MESSAGE

/-- Base key resolution in `_init` of `storage.ts`: an already-imported
CryptoKey is used as is, raw material is imported via `generateCryptoKey`,
which encodes it (modelled from the spec: key import idealized by its
encoded material). -/
def importBaseKey : SecretInput → Bytes
  | .raw d => encode d
  | .ckey k => k

/-- The resolved context of one instance (`IConfigProperties` without the
database handle and table name, which the single-table model keeps
implicit): base key material, resolved salt, iteration count. -/
structure Ctx where
  baseKey : Bytes
  salt : Bytes
  iterations : Option Nat
deriving DecidableEq

/-- The `_init` resolution of `storage.ts`: import the base key and resolve
the salt through the reserved-slot protocol, returning the resolved context
and the possibly updated table. -/
def EncryptStorage.init (secret : SecretInput) (salt : Option Bytes)
    (iterations : Option Nat) (t : Table) (freshSalt : Bytes) : Ctx × Table :=
  let res := getAndStoreSalt t salt freshSalt
  (⟨importBaseKey secret, res.1, iterations⟩, res.2)

/-- The `get` operation of `EncryptStorage`: hash the key and the nonce key;
if no blob is stored at the key digest, return no value; otherwise derive
the read key, look up the nonce and decrypt, reporting any failure as the
authenticity error. -/
def EncryptStorage.get (ctx : Ctx) (t : Table) (key : InputData) :
    Except String (Option String) :=
  let hashKey := generateHash key
  let hashNonce := generateHash (.str (getNonceKey key))
  match t hashKey with
  | none => .ok none
  | some encrypted =>
    let cryptoKey := deriveKey ctx.baseKey ctx.salt ctx.iterations
    match decrypt encrypted cryptoKey (t hashNonce) with
    | some value => .ok (some (decode (.buf value)))
    | none => .error AUTHENTICITY_ERROR_MESSAGE

/-- The `set` operation of `EncryptStorage`: hash the key and the nonce key,
derive the write key, encrypt the value under a fresh nonce, then put the
ciphertext at the key digest and the nonce at the nonce-key digest. -/
def EncryptStorage.set (ctx : Ctx) (t : Table) (key value : InputData)
    (freshNonce : Bytes) : Table :=
  let hashKey := generateHash key
  let hashNonce := generateHash (.str (getNonceKey key))
  let cryptoKey := deriveKey ctx.baseKey ctx.salt ctx.iterations
  let res := encrypt value cryptoKey freshNonce
  tput (tput t hashKey res.1) hashNonce res.2

/-- The `delete` operation of `EncryptStorage`: remove the blobs at the key
digest and at the nonce-key digest. -/
def EncryptStorage.delete (t : Table) (key : InputData) : Table :=
  tdel (tdel t (generateHash key)) (generateHash (.str (getNonceKey key)))

/-- The `clear` operation of `EncryptStorage`: clear the table, then run the
salt-slot protocol again with the resolved salt of the instance, which
re-persists it in the reserved slot. -/
def EncryptStorage.clear (ctx : Ctx) (_t : Table) (freshSalt : Bytes) : Table :=
  (getAndStoreSalt tclear (some ctx.salt) freshSalt).2

/-- Every character code point is below 0x110000. -/
theorem charToNatBound (c : Char) : c.toNat < 1114112 := by
  have h := c.valid
  have e : c.toNat = c.val.toNat := rfl
  rcases h with h | h <;> omega

/-- Decoding an encoded character prepended to any byte buffer recovers the
character and continues with the rest of the buffer. -/
theorem utf8DecodeList_encChar (c : Char) (r : Bytes) :
    utf8DecodeList (utf8EncodeChar c.toNat ++ r) = c :: utf8DecodeList r := by
  have hv : c.toNat < 1114112 := charToNatBound c
  rcases Nat.lt_or_ge c.toNat 0x80 with h1 | h1
  · have e : utf8EncodeChar c.toNat = [c.toNat] := by
      rw [utf8EncodeChar, if_pos h1]
    rw [e]
    rcases r with _ | ⟨p, _ | ⟨q, _ | ⟨w, t⟩⟩⟩ <;>
      · simp only [List.cons_append, List.nil_append, utf8DecodeList]
        rw [if_pos h1, Char.ofNat_toNat]
  · rcases Nat.lt_or_ge c.toNat 0x800 with h2 | h2
    · have e : utf8EncodeChar c.toNat = [0xC0 + c.toNat / 64, 0x80 + c.toNat % 64] := by
        rw [utf8EncodeChar, if_neg (by omega), if_pos h2]
      have a : (0xC0 + c.toNat / 64 - 0xC0) * 64 + (0x80 + c.toNat % 64 - 0x80) = c.toNat := by
        omega
      rw [e]
      rcases r with _ | ⟨p, _ | ⟨q, t⟩⟩ <;>
        · simp only [List.cons_append, List.nil_append, utf8DecodeList]
          rw [if_neg (by omega), if_neg (by omega), if_pos (by omega), if_pos (by omega), a,
            Char.ofNat_toNat]
    · rcases Nat.lt_or_ge c.toNat 0x10000 with h3 | h3
      · have e : utf8EncodeChar c.toNat =
            [0xE0 + c.toNat / 4096, 0x80 + c.toNat / 64 % 64, 0x80 + c.toNat % 64] := by
          rw [utf8EncodeChar, if_neg (by omega), if_neg (by omega), if_pos h3]
        have a : (0xE0 + c.toNat / 4096 - 0xE0) * 4096 + (0x80 + c.toNat / 64 % 64 - 0x80) * 64
            + (0x80 + c.toNat % 64 - 0x80) = c.toNat := by omega
        rw [e]
        rcases r with _ | ⟨p, t⟩ <;>
          · simp only [List.cons_append, List.nil_append, utf8DecodeList]
            rw [if_neg (by omega), if_neg (by omega), if_neg (by omega), if_pos (by omega),
              if_pos (by omega), a, Char.ofNat_toNat]
      · have e : utf8EncodeChar c.toNat =
            [0xF0 + c.toNat / 262144, 0x80 + c.toNat / 4096 % 64, 0x80 + c.toNat / 64 % 64,
              0x80 + c.toNat % 64] := by
          rw [utf8EncodeChar, if_neg (by omega), if_neg (by omega), if_neg (by omega)]
        have a : (0xF0 + c.toNat / 262144 - 0xF0) * 262144 + (0x80 + c.toNat / 4096 % 64 - 0x80)
            * 4096 + (0x80 + c.toNat / 64 % 64 - 0x80) * 64 + (0x80 + c.toNat % 64 - 0x80)
            = c.toNat := by omega
        rw [e]
        simp only [List.cons_append, List.nil_append, utf8DecodeList]
        rw [if_neg (by omega), if_neg (by omega), if_neg (by omega), if_neg (by omega),
          if_pos (by omega), a, Char.ofNat_toNat]
        exact rfl

/-- Decoding is a left inverse of encoding on character lists. -/
theorem utf8DecodeList_utf8Chars (l : List Char) : utf8DecodeList (utf8Chars l) = l := by
  induction l with
  | nil => rfl
  | cons c cs ih => rw [utf8Chars, utf8DecodeList_encChar, ih]

/-- Decoding an encoded string recovers the string: the TextEncoder and
TextDecoder round trip. -/
theorem decode_encode_str (s : String) : decode (.buf (encode (.str s))) = s := by
  show String.mk (utf8DecodeList (utf8Chars s.data)) = s
  rw [utf8DecodeList_utf8Chars]

/-- String encoding is injective. -/
theorem encode_str_inj {s t : String} (h : encode (.str s) = encode (.str t)) : s = t := by
  have h2 := congrArg (fun b => decode (.buf b)) h
  simpa only [decode_encode_str] using h2

/-- Encoding a concatenation of character lists concatenates the
encodings. -/
theorem utf8Chars_append (a b : List Char) :
    utf8Chars (a ++ b) = utf8Chars a ++ utf8Chars b := by
  induction a with
  | nil => rfl
  | cons c cs ih => simp only [List.cons_append, utf8Chars, List.append_eq, ih, List.append_assoc]

/-- Encoding a string with the suffix `-nonce` appended yields the encoding
of the string followed by six more bytes. -/
theorem encode_append_nonce (s : String) :
    encode (.str (s ++ "-nonce")) = encode (.str s) ++ [45, 110, 111, 110, 99, 101] := by
  show utf8Chars (s ++ "-nonce").data = utf8Chars s.data ++ [45, 110, 111, 110, 99, 101]
  have hdata : (s ++ "-nonce").data = s.data ++ "-nonce".data := rfl
  rw [hdata, utf8Chars_append]
  exact rfl

/-- The digest of a string key differs from the digest of the same key with
the `-nonce` suffix appended: the two differ in length. -/
theorem hash_ne_hashNonce (s : String) :
    generateHash (.str s) ≠ generateHash (.str (s ++ "-nonce")) := by
  intro h
  have h2 : encode (.str s) = encode (.str (s ++ "-nonce")) := h
  rw [encode_append_nonce] at h2
  have h3 := congrArg List.length h2
  simp only [List.length_append, List.length_cons, List.length_nil] at h3
  omega

/-- Reading a length-prefixed buffer from the front of a blob recovers the
buffer and the rest. -/
theorem readLenPref_lenPref (x r : Bytes) : readLenPref (lenPref x ++ r) = some (x, r) := by
  show readLenPref (x.length :: (x ++ r)) = some (x, r)
  rw [readLenPref, if_pos (by simp), List.take_left, List.drop_left]

/-- Reading a length-prefixed buffer is sound: a successful read means the
blob starts with the length-prefixed buffer. -/
theorem readLenPref_sound {b : Bytes} {x r : Bytes} (h : readLenPref b = some (x, r)) :
    b = lenPref x ++ r := by
  match b with
  | [] => exact absurd h (by rw [readLenPref]; exact fun hx => Option.noConfusion hx)
  | n :: rest =>
    rw [readLenPref] at h
    by_cases hn : n ≤ rest.length
    · rw [if_pos hn] at h
      have hx : rest.take n = x := congrArg (fun y => y.1) (Option.some.inj h)
      have hr : rest.drop n = r := congrArg (fun y => y.2) (Option.some.inj h)
      have hlen : x.length = n := by
        rw [← hx, List.length_take]
        omega
      show n :: rest = x.length :: (x ++ r)
      rw [hlen, ← hx, ← hr, List.take_append_drop]
    · rw [if_neg hn] at h
      exact absurd h (fun hx => Option.noConfusion hx)

/-- The ciphertext encoding re-associated to expose its first component. -/
theorem encodeCipher_assoc (k : DerivedKey) (n p : Bytes) :
    encodeCipher k n p =
      lenPref k.base ++ (lenPref k.salt ++ (k.iterations :: (lenPref n ++ lenPref p))) := by
  simp [encodeCipher, List.append_assoc]

/-- Parsing the encoding of a ciphertext recovers the key, nonce and
plaintext. -/
theorem parseCipher_encodeCipher (k : DerivedKey) (n p : Bytes) :
    parseCipher (encodeCipher k n p) = some (k, n, p) := by
  have hp : readLenPref (lenPref p) = some (p, []) := by
    have h0 := readLenPref_lenPref p []
    rwa [List.append_nil] at h0
  rw [encodeCipher_assoc]
  simp only [parseCipher, readLenPref_lenPref, hp, Option.some_bind]
  rw [if_pos trivial]

/-- Parsing is sound: a blob that parses as a ciphertext is the encoding of
the recovered key, nonce and plaintext. -/
theorem parseCipher_sound {b : Bytes} {k : DerivedKey} {n p : Bytes}
    (h : parseCipher b = some (k, n, p)) : b = encodeCipher k n p := by
  simp only [parseCipher] at h
  rcases e1 : readLenPref b with _ | ⟨base, r1⟩
  · rw [e1, Option.none_bind] at h
    exact Option.noConfusion h
  rw [e1, Option.some_bind] at h
  rcases e2 : readLenPref r1 with _ | ⟨salt, r2⟩
  · rw [e2, Option.none_bind] at h
    exact Option.noConfusion h
  rw [e2, Option.some_bind] at h
  rcases hr2 : r2 with _ | ⟨iterations, r3⟩ <;> rw [hr2] at h
  · exact Option.noConfusion h
  dsimp only [] at h
  rcases e3 : readLenPref r3 with _ | ⟨nonce, r4⟩
  · rw [e3, Option.none_bind] at h
    exact Option.noConfusion h
  rw [e3, Option.some_bind] at h
  rcases e4 : readLenPref r4 with _ | ⟨plain, r5⟩
  · rw [e4, Option.none_bind] at h
    exact Option.noConfusion h
  rw [e4, Option.some_bind] at h
  by_cases h5 : r5 = []
  · rw [if_pos h5] at h
    simp only [Option.some.injEq, Prod.mk.injEq] at h
    obtain ⟨hk, hn, hpl⟩ := h
    rw [readLenPref_sound e1, readLenPref_sound e2, hr2, readLenPref_sound e3,
      readLenPref_sound e4, h5, ← hk, ← hn, ← hpl, encodeCipher_assoc]
    simp [List.append_nil]
  · rw [if_neg h5] at h
    exact Option.noConfusion h

/-- The length of an encoded ciphertext. -/
theorem encodeCipher_length (k : DerivedKey) (n p : Bytes) :
    (encodeCipher k n p).length =
      k.base.length + k.salt.length + n.length + p.length + 5 := by
  simp [encodeCipher, lenPref]
  omega

/-- Decryption of an encoded ciphertext succeeds exactly when the nonce and
the key both match the ones that produced it, in which case it returns the
plaintext. -/
theorem decrypt_encodeCipher (key k : DerivedKey) (n p : Bytes) (m : Option Bytes) :
    decrypt (encodeCipher k n p) key m =
      if m = some n ∧ k = key then some p else none := by
  cases m with
  | none =>
    rw [if_neg (by simp)]
    rfl
  | some m2 =>
    simp only [decrypt, parseCipher_encodeCipher]
    by_cases hc : k = key ∧ n = m2
    · rw [if_pos hc, if_pos ⟨by rw [hc.2], hc.1⟩]
    · rw [if_neg hc, if_neg (fun hx => hc ⟨hx.2, by
        have hm := hx.1
        injection hm with hm2
        rw [hm2]⟩)]

/-- Decryption with a missing nonce always fails. -/
theorem decrypt_nonce_none (d : Bytes) (key : DerivedKey) : decrypt d key none = none := rfl

/-- A buffer can never be a ciphertext produced with itself as the nonce:
the encoding is strictly longer than its nonce component.  Hence decrypting
a stored nonce blob under its own value fails. -/
theorem decrypt_self_nonce (key : DerivedKey) (n : Bytes) : decrypt n key (some n) = none := by
  rcases e : parseCipher n with _ | ⟨k2, n2, p2⟩ <;> simp only [decrypt, e]
  by_cases hc : k2 = key ∧ n2 = n
  · exfalso
    have hs : n = encodeCipher k2 n2 p2 := parseCipher_sound e
    have hl := congrArg List.length hs
    rw [encodeCipher_length, hc.2] at hl
    omega
  · rw [if_neg hc]

/-- Evaluating a table after `set`: the record at the key digest holds the
ciphertext, provided the key digest differs from the nonce-key digest. -/
theorem set_at_key (ctx : Ctx) (t : Table) (k v : InputData) (n : Bytes)
    (hne : generateHash k ≠ generateHash (.str (getNonceKey k))) :
    EncryptStorage.set ctx t k v n (generateHash k) =
      some (encodeCipher (deriveKey ctx.baseKey ctx.salt ctx.iterations) n (encode v)) := by
  simp [EncryptStorage.set, encrypt, tput, hne]

/-- Evaluating a table after `set`: the record at the nonce-key digest holds
the nonce. -/
theorem set_at_nonce (ctx : Ctx) (t : Table) (k v : InputData) (n : Bytes) :
    EncryptStorage.set ctx t k v n (generateHash (.str (getNonceKey k))) = some n := by
  simp [EncryptStorage.set, encrypt, tput]

/-- Evaluating a table after `set` at an unrelated address leaves the record
unchanged. -/
theorem set_at_other (ctx : Ctx) (t : Table) (k v : InputData) (n a : Bytes)
    (h1 : a ≠ generateHash k) (h2 : a ≠ generateHash (.str (getNonceKey k))) :
    EncryptStorage.set ctx t k v n a = t a := by
  simp [EncryptStorage.set, encrypt, tput, h1, h2]

/-- Evaluating a table after `delete`: both records of the key are gone. -/
theorem delete_at_key (t : Table) (k : InputData) :
    EncryptStorage.delete t k (generateHash k) = none := by
  by_cases h : generateHash k = generateHash (.str (getNonceKey k)) <;>
    simp [EncryptStorage.delete, tdel, h]

/-- Evaluating a table after `delete`: the nonce record of the key is
gone. -/
theorem delete_at_nonce (t : Table) (k : InputData) :
    EncryptStorage.delete t k (generateHash (.str (getNonceKey k))) = none := by
  simp [EncryptStorage.delete, tdel]

/-- Evaluating a table after `delete` at an unrelated address leaves the
record unchanged. -/
theorem delete_at_other (t : Table) (k : InputData) (a : Bytes)
    (h1 : a ≠ generateHash k) (h2 : a ≠ generateHash (.str (getNonceKey k))) :
    EncryptStorage.delete t k a = t a := by
  simp [EncryptStorage.delete, tdel, h1, h2]

/-- The result of `get` depends on the table only through the records at the
key digest and at the nonce-key digest. -/
theorem get_congr (ctx : Ctx) (t1 t2 : Table) (k : InputData)
    (h1 : t1 (generateHash k) = t2 (generateHash k))
    (h2 : t1 (generateHash (.str (getNonceKey k))) =
      t2 (generateHash (.str (getNonceKey k)))) :
    EncryptStorage.get ctx t1 k = EncryptStorage.get ctx t2 k := by
  simp only [EncryptStorage.get]
  rw [h1, h2]

/-- Reading a key back right after writing it on the same instance returns
the decoded encoding of the written value, provided the key digest and the
nonce-key digest differ. -/
theorem get_set_same (ctx : Ctx) (t : Table) (k v : InputData) (n : Bytes)
    (hne : generateHash k ≠ generateHash (.str (getNonceKey k))) :
    EncryptStorage.get ctx (EncryptStorage.set ctx t k v n) k =
      .ok (some (decode (.buf (encode v)))) := by
  have h1 := set_at_key ctx t k v n hne
  have h2 := set_at_nonce ctx t k v n
  simp [EncryptStorage.get, h1, h2, decrypt_encodeCipher]

/-- A string key digest always differs from its nonce-key digest. -/
theorem strKey_hash_ne (s : String) :
    generateHash (.str s) ≠ generateHash (.str (getNonceKey (.str s))) := by
  show generateHash (.str s) ≠ generateHash (.str (s ++ "-nonce"))
  exact hash_ne_hashNonce s

/-- With a caller-supplied salt the resolved salt is always the caller
salt. -/
theorem getAndStoreSalt_some (t : Table) (cs : Bytes) (f : Bytes) :
    (getAndStoreSalt t (some cs) f).1 = cs := by
  rw [getAndStoreSalt]
  rcases e : t saltSlotAddr with _ | existing
  · rfl
  · dsimp only []
    by_cases h : cs = existing
    · rw [if_pos (Or.inr (by rw [h]))]
      exact h.symm
    · rw [if_neg (by
        intro hc
        rcases hc with hc | hc
        · exact Option.noConfusion hc
        · exact h (Option.some.inj hc))]
      exact rfl

/-- Resolving the salt against a slot that already holds the salt being
supplied returns it and leaves the table unchanged. -/
theorem getAndStoreSalt_exist_same (t : Table) (cs : Option Bytes) (f existing : Bytes)
    (he : t saltSlotAddr = some existing)
    (hcs : cs = none ∨ cs = some existing) :
    getAndStoreSalt t cs f = (existing, t) := by
  rw [getAndStoreSalt, he]
  dsimp only []
  rw [if_pos hcs]

/-- Decryption of a blob that does not parse as a ciphertext fails. -/
theorem decrypt_parse_none (d : Bytes) (key : DerivedKey) (m : Option Bytes)
    (hp : parseCipher d = none) : decrypt d key m = none := by
  cases m with
  | none => rfl
  | some m2 => simp only [decrypt, hp]

/-- When no record is stored at the key digest, `get` returns no value. -/
theorem get_absent (ctx : Ctx) (t : Table) (k : InputData)
    (h : t (generateHash k) = none) : EncryptStorage.get ctx t k = .ok none := by
  simp [EncryptStorage.get, h]

/-- When a record is present at the key digest and decryption of it fails,
`get` reports the authenticity error. -/
theorem get_fail (ctx : Ctx) (t : Table) (k : InputData) (e : Bytes)
    (he : t (generateHash k) = some e)
    (hd : decrypt e (deriveKey ctx.baseKey ctx.salt ctx.iterations)
      (t (generateHash (.str (getNonceKey k)))) = none) :
    EncryptStorage.get ctx t k = .error AUTHENTICITY_ERROR_MESSAGE := by
  simp [EncryptStorage.get, he, hd]

/-- Claim C1, counterexample.  The claim states that when the reserved slot
already holds a salt and the caller supplied a differing salt, resolution
returns the stored salt and leaves the slot unchanged.  At the concrete
state whose slot holds the salt 1,2,3 and with the differing caller salt
9,9, `getAndStoreSalt` returns the caller salt, not the stored one, and
overwrites the slot with it. -/
theorem C1_counterexample :
    (getAndStoreSalt (tput tclear saltSlotAddr [1, 2, 3]) (some [9, 9]) [0]).1 = [9, 9] ∧
    (getAndStoreSalt (tput tclear saltSlotAddr [1, 2, 3]) (some [9, 9]) [0]).2 saltSlotAddr
      = some [9, 9] ∧
    ([9, 9] : Bytes) ≠ [1, 2, 3] := by
  refine ⟨by decide, by decide, by decide⟩

/-- Claim C1, amended.  When the reserved slot already holds a salt and the
caller supplied a differing salt, the caller salt wins: salt resolution
returns the caller salt and overwrites the slot with it. -/
theorem C1_caller_salt_wins (t : Table) (existing cs f : Bytes)
    (he : t saltSlotAddr = some existing) (hne : cs ≠ existing) :
    getAndStoreSalt t (some cs) f = (cs, tput t saltSlotAddr cs) := by
  rw [getAndStoreSalt, he]
  dsimp only []
  rw [if_neg (by
    intro hc
    rcases hc with hc | hc
    · exact Option.noConfusion hc
    · exact hne (Option.some.inj hc))]
  exact rfl

/-- Claim C1, witness for the amended theorem at a concrete state. -/
theorem C1_caller_salt_wins_witness :
    (tput tclear saltSlotAddr [1, 2, 3]) saltSlotAddr = some [1, 2, 3] ∧
    ([9, 9] : Bytes) ≠ [1, 2, 3] ∧
    getAndStoreSalt (tput tclear saltSlotAddr [1, 2, 3]) (some [9, 9]) [0]
      = ([9, 9], tput (tput tclear saltSlotAddr [1, 2, 3]) saltSlotAddr [9, 9]) :=
  ⟨by decide, by decide,
    C1_caller_salt_wins (tput tclear saltSlotAddr [1, 2, 3]) [1, 2, 3] [9, 9] [0]
      (by decide) (by decide)⟩

/-- Claim C2, counterexample.  The claim states that every logical key has
its own per-key nonce address derived by appending a fixed suffix to the
key.  The two distinct binary keys 1 and 2 share one nonce address: the
digest of the constant string nonce. -/
theorem C2_counterexample :
    InputData.buf [1] ≠ InputData.buf [2] ∧
    generateHash (.str (getNonceKey (.buf [1]))) =
      generateHash (.str (getNonceKey (.buf [2]))) :=
  ⟨by decide, rfl⟩

/-- Claim C2, amended.  The operations `set`, `get` and `delete` address the
nonce record of key K at the digest of `getNonceKey K`; for a string key
this is the key with the fixed suffix appended, whose digest differs from
the digest of the key itself, while all binary keys share the digest of the
constant string nonce: `set` writes the nonce there, `delete` removes the
record there, and `get` reads the table only at the key digest and at that
nonce address. -/
theorem C2_nonce_addressing :
    (∀ s : String, getNonceKey (.str s) = s ++ "-nonce") ∧
    (∀ s : String, generateHash (.str (getNonceKey (.str s))) ≠ generateHash (.str s)) ∧
    (∀ b : Bytes, getNonceKey (.buf b) = "nonce") ∧
    (∀ (ctx : Ctx) (t : Table) (k v : InputData) (n : Bytes),
      EncryptStorage.set ctx t k v n (generateHash (.str (getNonceKey k))) = some n) ∧
    (∀ (t : Table) (k : InputData),
      EncryptStorage.delete t k (generateHash (.str (getNonceKey k))) = none) ∧
    (∀ (ctx : Ctx) (t1 t2 : Table) (k : InputData),
      t1 (generateHash k) = t2 (generateHash k) →
      t1 (generateHash (.str (getNonceKey k))) = t2 (generateHash (.str (getNonceKey k))) →
      EncryptStorage.get ctx t1 k = EncryptStorage.get ctx t2 k) := by
  refine ⟨fun s => rfl, fun s h => hash_ne_hashNonce s h.symm, fun b => rfl,
    set_at_nonce, delete_at_nonce, get_congr⟩

/-- Claim C2, witness for the amended theorem: `get` of a key is unchanged
by a record stored at an address that is neither the key digest nor the
nonce address of the key. -/
theorem C2_nonce_addressing_witness :
    EncryptStorage.get ⟨[107], [1], none⟩ tclear (.str "a") =
      EncryptStorage.get ⟨[107], [1], none⟩ (tput tclear [99] [1]) (.str "a") :=
  C2_nonce_addressing.2.2.2.2.2 ⟨[107], [1], none⟩ tclear (tput tclear [99] [1]) (.str "a")
    (by decide) (by decide)

/-- Claim C9, counterexample.  The claim states that a missing or empty
secret fails construction.  The empty binary secret is empty, yet the
constructor check passes: an empty buffer is truthy in JavaScript. -/
theorem C9_counterexample :
    EncryptStorage.construct (some (.raw (.buf []))) = .ok () ∧
    (Except.ok () : Except String Unit) ≠ .error CRYPTO_KEY_ERROR_MESSAGE :=
  ⟨by decide, by decide⟩

/-- Claim C9, amended.  Construction fails synchronously with the
configuration error exactly when the secret is missing or is the empty
string; every other secret, including non-empty text, any binary buffer
even when empty, and a key handle, passes the constructor check. -/
theorem C9_construct_check (k : Option SecretInput) :
    EncryptStorage.construct k = .error CRYPTO_KEY_ERROR_MESSAGE ↔
      (k = none ∨ k = some (.raw (.str ""))) := by
  cases k with
  | none => simp [EncryptStorage.construct, keyTruthy]
  | some si =>
    cases si with
    | raw d =>
      cases d with
      | str s =>
        by_cases hs : s = ""
        · subst hs
          simp [EncryptStorage.construct, keyTruthy]
          decide
        · simp [EncryptStorage.construct, keyTruthy, hs, String.isEmpty_iff]
      | buf b => simp [EncryptStorage.construct, keyTruthy]
    | ckey kb => simp [EncryptStorage.construct, keyTruthy]

/-- The writing instance of the C4 counterexample: its secret is the text
string a. -/
def c4secret1 : SecretInput := .raw (.str "a")

/-- The reading instance of the C4 counterexample: its secret is the binary
buffer holding the single byte 97, which differs from the text secret a as
a configuration value but encodes to the same key material. -/
def c4secret2 : SecretInput := .raw (.buf [97])

/-- Resolution of the writing instance of the C4 counterexample over an
empty table with caller salt 1,2,3. -/
def c4init1 : Ctx × Table := EncryptStorage.init c4secret1 (some [1, 2, 3]) none tclear [0]

/-- The table after the writing instance stores the value v under the key
k. -/
def c4t2 : Table := EncryptStorage.set c4init1.1 c4init1.2 (.str "k") (.str "v") [7]

/-- Resolution of the reading instance of the C4 counterexample over the
persisted table, with the same caller salt. -/
def c4init2 : Ctx × Table := EncryptStorage.init c4secret2 (some [1, 2, 3]) none c4t2 [0]

/-- Claim C4, counterexample.  The claim states that every get by an
instance whose secret differs fails with the authenticity error.  The two
secrets below differ as configuration values, yet the read succeeds and
returns the plaintext, because the text secret and the binary secret encode
to the same imported key material. -/
theorem C4_counterexample :
    c4secret1 ≠ c4secret2 ∧
    EncryptStorage.get c4init2.1 c4init2.2 (.str "k") = .ok (some "v") :=
  ⟨by decide, by decide⟩

/-- Claim C4, amended.  A record written by one instance and read by an
instance whose derived key material differs, that is, whose imported base
key bytes, resolved salt bytes, or effective iteration count differ, always
fails with the authenticity error and never returns any plaintext. -/
theorem C4_isolation (ctx1 ctx2 : Ctx) (t : Table) (k v : InputData) (n : Bytes)
    (hne : ctx2.baseKey ≠ ctx1.baseKey ∨ ctx2.salt ≠ ctx1.salt ∨
      ctx2.iterations.getD defaultIterations ≠ ctx1.iterations.getD defaultIterations) :
    EncryptStorage.get ctx2 (EncryptStorage.set ctx1 t k v n) k
      = .error AUTHENTICITY_ERROR_MESSAGE := by
  have hkey : deriveKey ctx1.baseKey ctx1.salt ctx1.iterations ≠
      deriveKey ctx2.baseKey ctx2.salt ctx2.iterations := by
    intro h
    rw [deriveKey, deriveKey, DerivedKey.mk.injEq] at h
    rcases hne with hne | hne | hne
    · exact hne h.1.symm
    · exact hne h.2.1.symm
    · exact hne h.2.2.symm
  by_cases hc : generateHash k = generateHash (.str (getNonceKey k))
  · have h1 : EncryptStorage.set ctx1 t k v n (generateHash k) = some n := by
      rw [hc]
      exact set_at_nonce ctx1 t k v n
    refine get_fail ctx2 _ k n h1 ?_
    rw [set_at_nonce ctx1 t k v n]
    exact decrypt_self_nonce _ n
  · have h1 := set_at_key ctx1 t k v n hc
    refine get_fail ctx2 _ k _ h1 ?_
    rw [set_at_nonce ctx1 t k v n, decrypt_encodeCipher]
    exact if_neg (fun hx => hkey hx.2)

/-- Claim C4, witness for the amended theorem at concrete instances with
differing base keys. -/
theorem C4_isolation_witness :
    EncryptStorage.get ⟨[108], [1], none⟩
      (EncryptStorage.set ⟨[107], [1], none⟩ tclear (.str "k") (.str "v") [7]) (.str "k")
      = .error AUTHENTICITY_ERROR_MESSAGE :=
  C4_isolation ⟨[107], [1], none⟩ ⟨[108], [1], none⟩ tclear (.str "k") (.str "v") [7]
    (Or.inl (by decide))

/-- Claim C5.  First, when no record is stored at the key digest, `get`
returns no value, not an error.  Second, when a record is present but is
corrupted (does not parse as a ciphertext), or is a ciphertext produced
under a differing derived key, or the stored nonce differs from the one the
ciphertext was produced with, `get` reports the authenticity error.  Third,
the authenticity error is never conflated with the no-value result. -/
theorem C5_get_absent_vs_authenticity :
    (∀ (ctx : Ctx) (t : Table) (k : InputData),
      t (generateHash k) = none → EncryptStorage.get ctx t k = .ok none) ∧
    (∀ (ctx : Ctx) (t : Table) (k : InputData) (e : Bytes),
      t (generateHash k) = some e → parseCipher e = none →
      EncryptStorage.get ctx t k = .error AUTHENTICITY_ERROR_MESSAGE) ∧
    (∀ (ctx : Ctx) (t : Table) (k : InputData) (key2 : DerivedKey) (n2 p2 : Bytes),
      t (generateHash k) = some (encodeCipher key2 n2 p2) →
      key2 ≠ deriveKey ctx.baseKey ctx.salt ctx.iterations →
      EncryptStorage.get ctx t k = .error AUTHENTICITY_ERROR_MESSAGE) ∧
    (∀ (ctx : Ctx) (t : Table) (k : InputData) (key2 : DerivedKey) (n2 p2 m : Bytes),
      t (generateHash k) = some (encodeCipher key2 n2 p2) →
      t (generateHash (.str (getNonceKey k))) = some m → m ≠ n2 →
      EncryptStorage.get ctx t k = .error AUTHENTICITY_ERROR_MESSAGE) ∧
    (∀ s : String, (Except.error s : Except String (Option String)) ≠ .ok none) := by
  refine ⟨?_, ?_, ?_, ?_, ?_⟩
  · intro ctx t k h
    simp [EncryptStorage.get, h]
  · intro ctx t k e he hp
    exact get_fail ctx t k e he (decrypt_parse_none e _ _ hp)
  · intro ctx t k key2 n2 p2 he hk
    refine get_fail ctx t k _ he ?_
    rw [decrypt_encodeCipher]
    exact if_neg (fun hx => hk hx.2)
  · intro ctx t k key2 n2 p2 m he hm hne
    refine get_fail ctx t k _ he ?_
    rw [hm, decrypt_encodeCipher]
    exact if_neg (fun hx => hne (Option.some.inj hx.1))
  · intro s h
    exact Except.noConfusion h

/-- Claim C5, witness: on an empty table every key reads as absent, and a
stored corrupted record reads as the authenticity error. -/
theorem C5_get_absent_vs_authenticity_witness :
    EncryptStorage.get ⟨[107], [1], none⟩ tclear (.str "x") = .ok none ∧
    EncryptStorage.get ⟨[107], [1], none⟩ (tput tclear (generateHash (.str "x")) [9])
      (.str "x") = .error AUTHENTICITY_ERROR_MESSAGE :=
  ⟨C5_get_absent_vs_authenticity.1 ⟨[107], [1], none⟩ tclear (.str "x") rfl,
    C5_get_absent_vs_authenticity.2.1 ⟨[107], [1], none⟩
      (tput tclear (generateHash (.str "x")) [9]) (.str "x") [9] (by decide) (by decide)⟩

/-- Claim C6, counterexample.  The claim states that a present ciphertext
with an absent nonce record reads as not found.  At the concrete state
below, holding a blob at the digest of the key k and nothing at the nonce
address, `get` raises the authenticity error, which is distinct from the
not-found result. -/
theorem C6_counterexample :
    EncryptStorage.get ⟨[1], [2], none⟩ (tput tclear (generateHash (.str "k")) [9]) (.str "k")
      = .error AUTHENTICITY_ERROR_MESSAGE ∧
    (Except.error AUTHENTICITY_ERROR_MESSAGE : Except String (Option String)) ≠ .ok none :=
  ⟨by decide, by decide⟩

/-- Claim C6, amended.  For every key whose ciphertext record exists but
whose nonce record is absent, `get` raises the authenticity error:
decryption with a missing nonce always fails, and the failure is reported
as the authenticity error, not as not found. -/
theorem C6_missing_nonce_error (ctx : Ctx) (t : Table) (k : InputData) (e : Bytes)
    (he : t (generateHash k) = some e)
    (hn : t (generateHash (.str (getNonceKey k))) = none) :
    EncryptStorage.get ctx t k = .error AUTHENTICITY_ERROR_MESSAGE := by
  refine get_fail ctx t k e he ?_
  rw [hn]
  exact decrypt_nonce_none e _

/-- Claim C6, witness for the amended theorem at a concrete state. -/
theorem C6_missing_nonce_error_witness :
    EncryptStorage.get ⟨[1], [2], none⟩ (tput tclear (generateHash (.str "k")) [9]) (.str "k")
      = .error AUTHENTICITY_ERROR_MESSAGE :=
  C6_missing_nonce_error ⟨[1], [2], none⟩ (tput tclear (generateHash (.str "k")) [9])
    (.str "k") [9] (by decide) (by decide)

/-- Claim C3, counterexample.  The claim states that `set` followed by
`get` returns the stored value exactly for all values.  Storing the binary
value 104,105 under a string key and reading it back yields the text string
hi, which as a datum is not the stored binary value: `get` always returns
the UTF-8 decoding of the stored bytes, collapsing binary values into
text. -/
theorem C3_counterexample :
    EncryptStorage.get ⟨[107], [1], none⟩
      (EncryptStorage.set ⟨[107], [1], none⟩ tclear (.str "k") (.buf [104, 105]) [7])
      (.str "k") = .ok (some "hi") ∧
    InputData.str "hi" ≠ InputData.buf [104, 105] :=
  ⟨by decide, by decide⟩

/-- Claim C3, amended.  On one instance, `set` followed by `get` of the same
key returns the stored value exactly when the key and the value are
strings; a binary value is returned as the UTF-8 decoding of its bytes; a
binary key round-trips string values exactly as well, unless the key equals
the UTF-8 bytes of the string nonce, whose nonce record overwrites its
value record. -/
theorem C3_roundtrip :
    (∀ (ctx : Ctx) (t : Table) (K V : String) (n : Bytes),
      EncryptStorage.get ctx (EncryptStorage.set ctx t (.str K) (.str V) n) (.str K)
        = .ok (some V)) ∧
    (∀ (ctx : Ctx) (t : Table) (K : String) (b n : Bytes),
      EncryptStorage.get ctx (EncryptStorage.set ctx t (.str K) (.buf b) n) (.str K)
        = .ok (some (String.mk (utf8DecodeList b)))) ∧
    (∀ (ctx : Ctx) (t : Table) (kb : Bytes) (V : String) (n : Bytes),
      kb ≠ encode (.str "nonce") →
      EncryptStorage.get ctx (EncryptStorage.set ctx t (.buf kb) (.str V) n) (.buf kb)
        = .ok (some V)) := by
  refine ⟨?_, ?_, ?_⟩
  · intro ctx t K V n
    rw [get_set_same ctx t (.str K) (.str V) n (strKey_hash_ne K), decode_encode_str]
  · intro ctx t K b n
    exact get_set_same ctx t (.str K) (.buf b) n (strKey_hash_ne K)
  · intro ctx t kb V n hne
    rw [get_set_same ctx t (.buf kb) (.str V) n hne, decode_encode_str]

/-- Claim C3, witness for the amended theorem: the binary-key conjunct at a
concrete key. -/
theorem C3_roundtrip_witness :
    EncryptStorage.get ⟨[107], [1], none⟩
      (EncryptStorage.set ⟨[107], [1], none⟩ tclear (.buf [0]) (.str "v") [7]) (.buf [0])
      = .ok (some "v") :=
  C3_roundtrip.2.2 ⟨[107], [1], none⟩ tclear [0] "v" [7] (by decide)

/-- Claim C7.  After `clear` exactly one record remains, the reserved slot
holding the salt the instance resolved at initialization; a fresh resolution
with the same configuration tuple over the cleared table yields the same
context and leaves the table unchanged; and a subsequent `set` and `get`
pair on the cleared table succeeds. -/
theorem C7_clear_salt_survives (secret : SecretInput) (cs : Option Bytes)
    (iters : Option Nat) (t0 : Table) (f0 : Bytes) (ctx : Ctx) (t1 : Table)
    (hinit : EncryptStorage.init secret cs iters t0 f0 = (ctx, t1))
    (t2 : Table) (f1 f2 : Bytes) (K V : String) (n : Bytes) :
    (∀ a, EncryptStorage.clear ctx t2 f1 a =
      if a = saltSlotAddr then some ctx.salt else none) ∧
    EncryptStorage.init secret cs iters (EncryptStorage.clear ctx t2 f1) f2
      = (ctx, EncryptStorage.clear ctx t2 f1) ∧
    EncryptStorage.get ctx
      (EncryptStorage.set ctx (EncryptStorage.clear ctx t2 f1) (.str K) (.str V) n)
      (.str K) = .ok (some V) := by
  have hb : importBaseKey secret = ctx.baseKey :=
    congrArg (fun x => x.1.baseKey) hinit
  have hi : iters = ctx.iterations :=
    congrArg (fun x => x.1.iterations) hinit
  have hclear : EncryptStorage.clear ctx t2 f1 = tput tclear saltSlotAddr ctx.salt := rfl
  have hslot : EncryptStorage.clear ctx t2 f1 saltSlotAddr = some ctx.salt := rfl
  refine ⟨fun a => rfl, ?_, ?_⟩
  · have hcs : cs = none ∨ cs = some ctx.salt := by
      rcases cs with _ | s0
      · exact Or.inl rfl
      · refine Or.inr ?_
        have hs : s0 = ctx.salt := by
          have h1 : (getAndStoreSalt t0 (some s0) f0).1 = s0 := getAndStoreSalt_some t0 s0 f0
          have h2 : (getAndStoreSalt t0 (some s0) f0).1 = ctx.salt :=
            congrArg (fun x => x.1.salt) hinit
          rw [← h1, h2]
        rw [hs]
    have hgass : getAndStoreSalt (EncryptStorage.clear ctx t2 f1) cs f2
        = (ctx.salt, EncryptStorage.clear ctx t2 f1) :=
      getAndStoreSalt_exist_same _ cs f2 ctx.salt hslot hcs
    show (⟨importBaseKey secret,
      (getAndStoreSalt (EncryptStorage.clear ctx t2 f1) cs f2).1, iters⟩,
      (getAndStoreSalt (EncryptStorage.clear ctx t2 f1) cs f2).2)
      = (ctx, EncryptStorage.clear ctx t2 f1)
    rw [hgass, hb, hi]
  · rw [get_set_same ctx _ (.str K) (.str V) n (strKey_hash_ne K), decode_encode_str]

/-- Claim C7, witness: a concrete instance with a caller salt, cleared and
then written and read again. -/
theorem C7_clear_salt_survives_witness :
    EncryptStorage.get ⟨[115], [5], none⟩
      (EncryptStorage.set ⟨[115], [5], none⟩
        (EncryptStorage.clear ⟨[115], [5], none⟩ tclear [6]) (.str "k") (.str "v") [9])
      (.str "k") = .ok (some "v") :=
  (C7_clear_salt_survives (.raw (.str "s")) (some [5]) none tclear [0]
    ⟨[115], [5], none⟩ (tput tclear saltSlotAddr [5]) rfl tclear [6] [7] "k" "v" [9]).2.2

/-- The instance context of the C8 counterexample. -/
def c8ctx : Ctx := ⟨[107], [1], none⟩

/-- The table of the C8 counterexample: the key a and the key a-nonce are
both stored. -/
def c8t2 : Table :=
  EncryptStorage.set c8ctx
    (EncryptStorage.set c8ctx tclear (.str "a") (.str "v1") [1])
    (.str "a-nonce") (.str "v2") [2]

/-- Claim C8, counterexample.  The claim states that after deleting a key
every other stored key remains retrievable.  With the keys a and a-nonce
both stored and retrievable, deleting the key a also removes the value
record of the distinct key a-nonce, whose digest is the nonce address of a,
so a-nonce stops being retrievable. -/
theorem C8_counterexample :
    ("a-nonce" : String) ≠ "a" ∧
    EncryptStorage.get c8ctx c8t2 (.str "a-nonce") = .ok (some "v2") ∧
    EncryptStorage.get c8ctx (EncryptStorage.delete c8t2 (.str "a")) (.str "a-nonce")
      = .ok none :=
  ⟨by decide, by decide, by decide⟩

/-- Claim C8, amended.  For a string key K, `delete` removes both the
ciphertext record and the nonce record of K; deleting when both records are
absent is a no-op; after the delete, `get` of K returns not found; and
every other stored string key K2 remains retrievable provided neither key
is the other with the fixed nonce suffix appended (when K2 is K with the
suffix appended its value record is the nonce record of K and is deleted
with it, and symmetrically). -/
theorem C8_delete_both_records (ctx : Ctx) (t : Table) (K : String) :
    EncryptStorage.delete t (.str K) (generateHash (.str K)) = none ∧
    EncryptStorage.delete t (.str K) (generateHash (.str (getNonceKey (.str K)))) = none ∧
    (t (generateHash (.str K)) = none →
      t (generateHash (.str (getNonceKey (.str K)))) = none →
      EncryptStorage.delete t (.str K) = t) ∧
    EncryptStorage.get ctx (EncryptStorage.delete t (.str K)) (.str K) = .ok none ∧
    (∀ (K2 V2 : String), K2 ≠ K → K2 ≠ K ++ "-nonce" → K ≠ K2 ++ "-nonce" →
      EncryptStorage.get ctx t (.str K2) = .ok (some V2) →
      EncryptStorage.get ctx (EncryptStorage.delete t (.str K)) (.str K2) = .ok (some V2)) := by
  refine ⟨delete_at_key t (.str K), delete_at_nonce t (.str K), ?_, ?_, ?_⟩
  · intro h1 h2
    funext a
    simp only [EncryptStorage.delete, tdel]
    split_ifs with hA hB
    · rw [hA]
      exact h2.symm
    · rw [hB]
      exact h1.symm
    · rfl
  · exact get_absent ctx _ (.str K) (delete_at_key t (.str K))
  · intro K2 V2 h1 h2 h3 hget
    have mkEq : ∀ {a b : String}, a.data = b.data → a = b := by
      intro a b hd
      rw [← show String.mk a.data = a from rfl, ← show String.mk b.data = b from rfl, hd]
    have e1 : generateHash (.str K2) ≠ generateHash (.str K) :=
      fun h => h1 (encode_str_inj h)
    have e2 : generateHash (.str K2) ≠ generateHash (.str (getNonceKey (.str K))) :=
      fun h => h2 (encode_str_inj h)
    have e3 : generateHash (.str (getNonceKey (.str K2))) ≠ generateHash (.str K) :=
      fun h => h3 (encode_str_inj h).symm
    have e4 : generateHash (.str (getNonceKey (.str K2)))
        ≠ generateHash (.str (getNonceKey (.str K))) := by
      intro h
      refine h1 ?_
      have hd : K2.data ++ "-nonce".data = K.data ++ "-nonce".data :=
        congrArg String.data (encode_str_inj h)
      exact mkEq (List.append_cancel_right hd)
    rw [get_congr ctx (EncryptStorage.delete t (.str K)) t (.str K2)
      (delete_at_other t (.str K) _ e1 e2) (delete_at_other t (.str K) _ e3 e4)]
    exact hget

/-- Claim C8, witness for the amended theorem: deleting one key leaves a
concrete unrelated stored key retrievable. -/
theorem C8_delete_both_records_witness :
    EncryptStorage.get ⟨[107], [1], none⟩
      (EncryptStorage.delete
        (EncryptStorage.set ⟨[107], [1], none⟩ tclear (.str "b") (.str "w") [9]) (.str "a"))
      (.str "b") = .ok (some "w") :=
  (C8_delete_both_records ⟨[107], [1], none⟩
    (EncryptStorage.set ⟨[107], [1], none⟩ tclear (.str "b") (.str "w") [9]) "a").2.2.2.2
    "b" "w" (by decide) (by decide) (by decide) (by decide)

/-- Claim C10.  All binary keys share the single nonce address given by the
digest of the constant string nonce; consequently, after writing under two
distinct binary keys with distinct fresh nonces, reading the first key
raises the authenticity error (its nonce record was overwritten), and after
deleting the first key the shared nonce record is gone, so reading the
second key fails as well: it raises the authenticity error, or returns not
found in the corner case that the second key itself equals the bytes of the
shared nonce address. -/
theorem C10_shared_binary_nonce (ctx : Ctx) (t : Table) (b1 b2 : Bytes)
    (v1 v2 : InputData) (n1 n2 : Bytes) (hb : b1 ≠ b2) (hn : n1 ≠ n2) :
    generateHash (.str (getNonceKey (.buf b1))) =
      generateHash (.str (getNonceKey (.buf b2))) ∧
    EncryptStorage.get ctx
      (EncryptStorage.set ctx (EncryptStorage.set ctx t (.buf b1) v1 n1) (.buf b2) v2 n2)
      (.buf b1) = .error AUTHENTICITY_ERROR_MESSAGE ∧
    (EncryptStorage.get ctx
      (EncryptStorage.delete
        (EncryptStorage.set ctx (EncryptStorage.set ctx t (.buf b1) v1 n1) (.buf b2) v2 n2)
        (.buf b1)) (.buf b2) = .error AUTHENTICITY_ERROR_MESSAGE ∨
     EncryptStorage.get ctx
      (EncryptStorage.delete
        (EncryptStorage.set ctx (EncryptStorage.set ctx t (.buf b1) v1 n1) (.buf b2) v2 n2)
        (.buf b1)) (.buf b2) = .ok none) := by
  refine ⟨rfl, ?_, ?_⟩
  · by_cases hb1N : b1 = encode (.str "nonce")
    · have h1 : EncryptStorage.set ctx (EncryptStorage.set ctx t (.buf b1) v1 n1)
          (.buf b2) v2 n2 (generateHash (.buf b1)) = some n2 := by
        show EncryptStorage.set ctx (EncryptStorage.set ctx t (.buf b1) v1 n1)
          (.buf b2) v2 n2 b1 = some n2
        rw [hb1N]
        exact set_at_nonce ctx _ (.buf b2) v2 n2
      refine get_fail ctx _ (.buf b1) n2 h1 ?_
      have hN : generateHash (.str (getNonceKey (.buf b1)))
          = generateHash (.str (getNonceKey (.buf b2))) := rfl
      rw [hN, set_at_nonce ctx _ (.buf b2) v2 n2]
      exact decrypt_self_nonce _ n2
    · have h1 : EncryptStorage.set ctx (EncryptStorage.set ctx t (.buf b1) v1 n1)
          (.buf b2) v2 n2 (generateHash (.buf b1)) = some
          (encodeCipher (deriveKey ctx.baseKey ctx.salt ctx.iterations) n1 (encode v1)) := by
        rw [set_at_other ctx _ (.buf b2) v2 n2 (generateHash (.buf b1)) hb hb1N]
        exact set_at_key ctx t (.buf b1) v1 n1 hb1N
      refine get_fail ctx _ (.buf b1) _ h1 ?_
      have hN : generateHash (.str (getNonceKey (.buf b1)))
          = generateHash (.str (getNonceKey (.buf b2))) := rfl
      rw [hN, set_at_nonce ctx _ (.buf b2) v2 n2, decrypt_encodeCipher]
      refine if_neg (fun hx => hn ?_)
      exact (Option.some.inj hx.1).symm
  · by_cases hb2N : b2 = encode (.str "nonce")
    · refine Or.inr (get_absent ctx _ (.buf b2) ?_)
      show EncryptStorage.delete _ (.buf b1) b2 = none
      rw [hb2N]
      exact delete_at_nonce _ (.buf b1)
    · refine Or.inl ?_
      have h1 : EncryptStorage.delete
          (EncryptStorage.set ctx (EncryptStorage.set ctx t (.buf b1) v1 n1)
            (.buf b2) v2 n2) (.buf b1) (generateHash (.buf b2)) = some
          (encodeCipher (deriveKey ctx.baseKey ctx.salt ctx.iterations) n2 (encode v2)) := by
        rw [delete_at_other _ (.buf b1) (generateHash (.buf b2))
          (fun h => hb h.symm) hb2N]
        exact set_at_key ctx _ (.buf b2) v2 n2 hb2N
      refine get_fail ctx _ (.buf b2) _ h1 ?_
      have hN : generateHash (.str (getNonceKey (.buf b2)))
          = generateHash (.str (getNonceKey (.buf b1))) := rfl
      rw [hN, delete_at_nonce _ (.buf b1)]
      exact decrypt_nonce_none _ _

/-- Claim C10, witness at concrete binary keys and nonces. -/
theorem C10_shared_binary_nonce_witness :
    EncryptStorage.get ⟨[107], [1], none⟩
      (EncryptStorage.set ⟨[107], [1], none⟩
        (EncryptStorage.set ⟨[107], [1], none⟩ tclear (.buf [1]) (.str "x") [3])
        (.buf [2]) (.str "y") [4]) (.buf [1]) = .error AUTHENTICITY_ERROR_MESSAGE :=
  (C10_shared_binary_nonce ⟨[107], [1], none⟩ tclear [1] [2] (.str "x") (.str "y") [3] [4]
    (by decide) (by decide)).2.1

end WebEncryptStorage
